import Mathlib

/-!
Shallow embedding of the BoomFilters library (Go): the Stable Bloom Filter
(`stable.go`) and the Inverse Bloom Filter (`inverse.go`).  Byte strings are
`List Nat` with entries below 256; machine integers are `Nat` with explicit
reduction modulo `2 ^ 64` / `2 ^ 32` where Go overflow matters.
-/

namespace Boom

/-- `2 ^ 64`, the modulus of Go's `uint64` / `uint` arithmetic. -/
def u64 : Nat := 2 ^ 64

/-- `2 ^ 32`, the modulus of Go's `uint32` arithmetic. -/
def u32 : Nat := 2 ^ 32

/-! ### FNV hashing (`hash/fnv`)

`fnv.New64()` is 64-bit FNV-1 (multiply, then xor); `fnv.New32a()` is 32-bit
FNV-1a (xor, then multiply). -/

/-- FNV-64 offset basis, the initial state of `fnv.New64()`. -/
def fnv64Offset : Nat := 14695981039346656037

/-- FNV-64 prime. -/
def fnv64Prime : Nat := 1099511628211

/-- `Write` for `fnv.New64()`: per byte, `s *= prime64; s ^= uint64(b)`. -/
def fnv64Write (h : Nat) (data : List Nat) : Nat :=
  data.foldl (fun acc b => (acc * fnv64Prime % u64) ^^^ b) h

/-- The FNV-1 64-bit digest of `data`, starting from the offset basis. -/
def fnv64 (data : List Nat) : Nat := fnv64Write fnv64Offset data

/-- `Sum(nil)` of `fnv.New64()`: the 8 bytes of the state, big-endian. -/
def sumBytes64 (h : Nat) : List Nat :=
  [h / 2 ^ 56 % 256, h / 2 ^ 48 % 256, h / 2 ^ 40 % 256, h / 2 ^ 32 % 256,
   h / 2 ^ 24 % 256, h / 2 ^ 16 % 256, h / 2 ^ 8 % 256, h % 256]

/-- `binary.BigEndian.Uint32` of a 4-byte slice. -/
def beUint32 (bs : List Nat) : Nat :=
  bs.getD 0 0 * 2 ^ 24 + bs.getD 1 0 * 2 ^ 16 + bs.getD 2 0 * 2 ^ 8 + bs.getD 3 0

/-- FNV-32a offset basis, the initial state of `fnv.New32a()`. -/
def fnv32aOffset : Nat := 2166136261

/-- FNV-32a prime. -/
def fnv32aPrime : Nat := 16777619

/-- `Write` for `fnv.New32a()`: per byte, `s = (s ^ uint32(b)) * prime32`.
The filter's `Write`/`Sum`/`Reset` call pattern makes the digest a pure
function of the key, so the hash is embedded as such. -/
def fnv32a (data : List Nat) : Nat :=
  data.foldl (fun acc b => (acc ^^^ b) * fnv32aPrime % u32) fnv32aOffset

/-- `Sum(nil)` of `fnv.New32a()`: the 4 bytes of the state, big-endian. -/
def sumBytes32 (h : Nat) : List Nat :=
  [h / 2 ^ 24 % 256, h / 2 ^ 16 % 256, h / 2 ^ 8 % 256, h % 256]

/-! ### StableBloomFilter (`stable.go`) -/

/-- State of `StableBloomFilter` (`stable.go`).  `hashState` is the internal
state of the owned `fnv.New64()` instance; `cells` holds `uint8` counters. -/
structure StableBloomFilter where
  cells : List Nat
  hashState : Nat
  m : Nat
  p : Nat
  k : Nat
  max : Nat
  indexBuffer : List Nat
  deriving Repr, DecidableEq

/-- `hashKernel` (stable.go:196-201): write the key into the FNV-64 hash, take
the big-endian digest, reset the hash, and return
`(BigEndian.Uint32(sum[4:8]), BigEndian.Uint32(sum[0:4]))` = `(lower, upper)`,
together with the filter whose hash state has been reset. -/
def StableBloomFilter.hashKernel (s : StableBloomFilter) (data : List Nat) :
    (Nat × Nat) × StableBloomFilter :=
  let sum := sumBytes64 (fnv64Write s.hashState data)
  ((beUint32 (sum.drop 4), beUint32 (sum.take 4)), { s with hashState := fnv64Offset })

/-- The i-th probe index `(uint(lower) + uint(upper)*i) % s.m`, with Go `uint`
arithmetic wrapping modulo `2 ^ 64`. -/
def probeIdx (lower upper m i : Nat) : Nat := ((lower + upper * i) % u64) % m

/-- The loop body of `Test`/`TestAndAdd` (stable.go:119-124): for `n` more
iterations starting at probe number `i`, store each probe index into the
buffer and clear `member` whenever the probed cell is zero. -/
def testLoop (cells : List Nat) (lower upper m : Nat) :
    Nat → Nat → List Nat → Bool → Bool × List Nat
  | 0, _, buf, member => (member, buf)
  | n + 1, i, buf, member =>
    let idx := probeIdx lower upper m i
    testLoop cells lower upper m n (i + 1) (buf.set i idx)
      (if cells.getD idx 0 = 0 then false else member)

/-- `Test` (stable.go:114-127): compute the hash kernel, probe the `k` cells
(recording the indices in `indexBuffer`), and report membership iff none of
the probed cells is zero. -/
def StableBloomFilter.Test (s : StableBloomFilter) (data : List Nat) :
    Bool × StableBloomFilter :=
  let (lu, s1) := s.hashKernel data
  let mb := testLoop s1.cells lu.1 lu.2 s1.m s1.k 0 s1.indexBuffer true
  (mb.1, { s1 with indexBuffer := mb.2 })

/-- The loop body of `decrement` (stable.go:186-191): for `n` more iterations
at offset `i`, decrement cell `(r + i) % m` by one unless it is already 0. -/
def decLoop (m r : Nat) : Nat → Nat → List Nat → List Nat
  | 0, _, cells => cells
  | n + 1, i, cells =>
    decLoop m r n (i + 1)
      (if 1 ≤ cells.getD ((r + i) % m) 0
       then cells.set ((r + i) % m) (cells.getD ((r + i) % m) 0 - 1)
       else cells)

/-- `decrement` (stable.go:184-192): given the random draw `r` from
`rand.Intn(int(s.m))`, decrement the `p` cells `r, r+1, …, r+p-1` (mod `m`),
each clamped at 0. -/
def StableBloomFilter.decrement (s : StableBloomFilter) (r : Nat) : StableBloomFilter :=
  { s with cells := decLoop s.m r s.p 0 s.cells }

/-- The set loop of `Add` (stable.go:138-140): set the `n` probe cells
starting at probe number `i` to `max`. -/
def setLoop (lower upper m maxv : Nat) : Nat → Nat → List Nat → List Nat
  | 0, _, cells => cells
  | n + 1, i, cells =>
    setLoop lower upper m maxv n (i + 1) (cells.set (probeIdx lower upper m i) maxv)

/-- `Add` (stable.go:131-143): run `decrement` (with random draw `r`), then
compute the hash kernel and set the `k` probe cells to `max`. -/
def StableBloomFilter.Add (s : StableBloomFilter) (r : Nat) (data : List Nat) :
    StableBloomFilter :=
  let s0 := s.decrement r
  let (lu, s1) := s0.hashKernel data
  { s1 with cells := setLoop lu.1 lu.2 s1.m s1.max s1.k 0 s1.cells }

/-- The set loop of `TestAndAdd` (stable.go:163-165): set every index listed
in the index buffer to `max`. -/
def setIdxLoop (maxv : Nat) (idxs : List Nat) (cells : List Nat) : List Nat :=
  idxs.foldl (fun cs idx => cs.set idx maxv) cells

/-- `TestAndAdd` (stable.go:147-168): compute the kernel once, run the test
loop (filling `indexBuffer`), then `decrement`, then set every cell listed in
`indexBuffer` to `max`. -/
def StableBloomFilter.TestAndAdd (s : StableBloomFilter) (r : Nat) (data : List Nat) :
    Bool × StableBloomFilter :=
  let (lu, s1) := s.hashKernel data
  let mb := testLoop s1.cells lu.1 lu.2 s1.m s1.k 0 s1.indexBuffer true
  let s2 := { s1 with indexBuffer := mb.2 }
  let s3 := s2.decrement r
  (mb.1, { s3 with cells := setIdxLoop s3.max s3.indexBuffer s3.cells })

/-- `NewStableBloomFilter` (stable.go:48-66): clamp `p` and `k` to at most
`size`, allocate `size` zero cells and a zero index buffer of length `k`; the
FNV-64 hash starts at the offset basis. -/
def NewStableBloomFilter (size k p : Nat) (max : Nat) : StableBloomFilter :=
  let p' := if p > size then size else p
  let k' := if k > size then size else k
  { cells := List.replicate size 0, hashState := fnv64Offset,
    m := size, p := p', k := k', max := max,
    indexBuffer := List.replicate k' 0 }

/-- `NewUnstableBloomFilter` (stable.go:78-80): the classic-Bloom-filter
special case `p = 0`, `max = 1`. -/
def NewUnstableBloomFilter (size k : Nat) : StableBloomFilter :=
  NewStableBloomFilter size k 0 1

/-- `StablePoint` (stable.go:95-103).  Go's `float64` arithmetic is embedded
as extended nonnegative reals: on the exactly representable values this
formula produces for a constructed filter (`k ≤ m`), IEEE-754 arithmetic is
exact and `1/0 = +Inf`, `1 + Inf = Inf`, `1/Inf = 0`, `Pow(0, max) = 0`
match the `ℝ≥0∞` operations. -/
noncomputable def StableBloomFilter.StablePoint (s : StableBloomFilter) : ENNReal :=
  let subDenom : ENNReal := (s.p : ENNReal) * (1 / (s.k : ENNReal) - 1 / (s.m : ENNReal))
  let denom := 1 + 1 / subDenom
  (1 / denom) ^ s.max

/-- `FalsePositiveRate` (stable.go:107-109): `(1 - StablePoint)^k`. -/
noncomputable def StableBloomFilter.FalsePositiveRate (s : StableBloomFilter) : ENNReal :=
  (1 - s.StablePoint) ^ s.k

/-- One externally invokable mutating/querying operation on a
`StableBloomFilter`; `add` and `testAndAdd` carry the random draw of their
eviction step. -/
inductive SBFOp where
  | test : List Nat → SBFOp
  | add : Nat → List Nat → SBFOp
  | testAndAdd : Nat → List Nat → SBFOp

/-- Execute one operation, keeping the resulting state. -/
def runOp (s : StableBloomFilter) : SBFOp → StableBloomFilter
  | .test d => (s.Test d).2
  | .add r d => s.Add r d
  | .testAndAdd r d => (s.TestAndAdd r d).2

/-- Execute a sequence of operations. -/
def runOps (s : StableBloomFilter) (ops : List SBFOp) : StableBloomFilter :=
  ops.foldl runOp s

/-! ### InverseBloomFilter (`inverse.go`) -/

/-- `maxSize` (inverse.go): the largest admissible filter size, `2 ^ 30`. -/
def maxSize : Nat := 2 ^ 30

/-- State of `InverseBloomFilter`: a slot array of optional byte strings plus
the power-of-two mask.  A `none` slot is Go's nil `*[]byte`. -/
structure InverseBloomFilter where
  array : List (Option (List Nat))
  sizeMask : Nat
  deriving Repr, DecidableEq

/-- `uintHash.Sum32` (inverse.go:108-116): take the 4-byte big-endian FNV-32a
digest `sum`, start from `sum[0]`, and fold the bytes `sum[1:3]` with
`x = x<<3 + val`. -/
def uintHash.Sum32 (h : Nat) : Nat :=
  let sum := sumBytes32 h
  ((sum.drop 1).take 2).foldl (fun x val => (x <<< 3) + val) (sum.getD 0 0)

/-- Ceiling of `log₂` by fuelled halving; `clog2Go n` is the exponent the Go
code computes as `math.Ceil(math.Log2(float64(n)))`.  For `1 ≤ n ≤ 2^30`
(the admitted range) the `float64` computation is exact, so it agrees with
the integer ceiling log embedded here. -/
def clog2Aux : Nat → Nat → Nat
  | 0, _ => 0
  | fuel + 1, n => if n ≤ 1 then 0 else clog2Aux fuel ((n + 1) / 2) + 1

/-- Ceiling of `log₂ n` (0 for `n ≤ 1`). -/
def clog2Go (n : Nat) : Nat := clog2Aux n n

/-- `NewInverseBloomFilter` (inverse.go:70-84): error if `size > 2^30` or
`size ≤ 0`; otherwise round `size` up to the next power of two, allocate that
many empty slots, and set `sizeMask = size - 1`. -/
def NewInverseBloomFilter (size : Int) : Except String InverseBloomFilter :=
  if size > (maxSize : Int) then .error "Size too large to round to a power of 2"
  else if size ≤ 0 then .error "Size must be greater than 0"
  else
    let sz := 2 ^ clog2Go size.toNat
    .ok { array := List.replicate sz none, sizeMask := sz - 1 }

/-- `getAndSet` (inverse.go:120-135): read the old occupant of slot `index`
(Go's nil `*[]byte` yields the nil byte slice, which `bytes.Equal` identifies
with the empty slice, embedded as `[]`), then store `key` there. -/
def getAndSet (arr : List (Option (List Nat))) (index : Nat) (key : List Nat) :
    List Nat × List (Option (List Nat)) :=
  ((arr.getD index none).getD [], arr.set index (some key))

/-- `Observe` (inverse.go:91-97): hash the key, mask to a slot index, swap the
slot's occupant for `key`, and return whether the previous occupant's bytes
equal `key` (`bytes.Equal`). -/
def InverseBloomFilter.Observe (i : InverseBloomFilter) (key : List Nat) :
    Bool × InverseBloomFilter :=
  let uindex := uintHash.Sum32 (fnv32a key) &&& i.sizeMask
  let os := getAndSet i.array uindex key
  (os.1 == key, { i with array := os.2 })

/-- The slot index `Observe` computes for `key` on filter `i`. -/
def InverseBloomFilter.observeIndex (i : InverseBloomFilter) (key : List Nat) : Nat :=
  uintHash.Sum32 (fnv32a key) &&& i.sizeMask

/-- `Size` (inverse.go:100-102): the slot-array length. -/
def InverseBloomFilter.Size (i : InverseBloomFilter) : Nat := i.array.length

/-- The `(lower, upper)` pair `hashKernel` produces when the hash starts from
the offset basis (its state between any two public calls). -/
def kernelOf (x : List Nat) : Nat × Nat :=
  (beUint32 ((sumBytes64 (fnv64 x)).drop 4), beUint32 ((sumBytes64 (fnv64 x)).take 4))

/-! ### List helpers -/

theorem getD_set_self {α : Type} {l : List α} {i : Nat} {v d : α} (h : i < l.length) :
    (l.set i v).getD i d = v := by
  simp [List.getD_eq_getElem?_getD, List.getElem?_set, h]

theorem getD_set_ne {α : Type} {l : List α} {i j : Nat} {v d : α} (h : i ≠ j) :
    (l.set i v).getD j d = l.getD j d := by
  simp [List.getD_eq_getElem?_getD, List.getElem?_set_ne h]

theorem getD_set_or {α : Type} (l : List α) (i j : Nat) (v d : α) :
    (l.set i v).getD j d = v ∨ (l.set i v).getD j d = l.getD j d := by
  by_cases hij : i = j
  · subst hij
    by_cases hl : i < l.length
    · exact Or.inl (getD_set_self hl)
    · right
      rw [List.set_eq_of_length_le (Nat.le_of_not_lt hl)]
  · exact Or.inr (getD_set_ne hij)

theorem take_succ_set {α : Type} (v : α) :
    ∀ (buf : List α) (i : Nat), i < buf.length →
      (buf.set i v).take (i + 1) = buf.take i ++ [v]
  | [], i, h => by simp at h
  | a :: t, 0, _ => by simp
  | a :: t, i + 1, h => by
    simp only [List.set_cons_succ, List.take_succ_cons, List.cons_append]
    exact congrArg (a :: ·) (take_succ_set v t i (by simpa using h))

/-! ### Loop characterizations for the stable filter -/

theorem testLoop_fst (cells : List Nat) (l u m : Nat) :
    ∀ (n i : Nat) (buf : List Nat) (member : Bool),
      (testLoop cells l u m n i buf member).1 =
        (member && decide (∀ t, t < n → cells.getD (probeIdx l u m (i + t)) 0 ≠ 0))
  | 0, i, buf, member => by simp [testLoop]
  | n + 1, i, buf, member => by
    rw [testLoop, testLoop_fst cells l u m n (i + 1)]
    by_cases h : cells.getD (probeIdx l u m i) 0 = 0
    · have : ¬(∀ t, t < n + 1 → cells.getD (probeIdx l u m (i + t)) 0 ≠ 0) := by
        intro hall
        exact hall 0 (Nat.succ_pos n) (by simpa using h)
      simp only [if_pos h, Bool.false_and, decide_eq_false this, Bool.and_false]
    · have heq : (∀ t, t < n → cells.getD (probeIdx l u m (i + 1 + t)) 0 ≠ 0) ↔
          (∀ t, t < n + 1 → cells.getD (probeIdx l u m (i + t)) 0 ≠ 0) := by
        constructor
        · intro hall t ht
          match t with
          | 0 => simpa using h
          | t + 1 =>
            have := hall t (by omega)
            simpa [Nat.add_comm, Nat.add_left_comm] using this
        · intro hall t ht
          have := hall (t + 1) (by omega)
          simpa [Nat.add_comm, Nat.add_left_comm] using this
      rw [if_neg h, decide_eq_decide.mpr heq]

theorem testLoop_snd (cells : List Nat) (l u m : Nat) :
    ∀ (n i : Nat) (buf : List Nat) (member : Bool), buf.length = i + n →
      (testLoop cells l u m n i buf member).2 =
        buf.take i ++ (List.range n).map (fun t => probeIdx l u m (i + t))
  | 0, i, buf, member, hlen => by
    simp [testLoop, List.take_of_length_le (show buf.length ≤ i by omega)]
  | n + 1, i, buf, member, hlen => by
    rw [testLoop, testLoop_snd cells l u m n (i + 1) _ _ (by rw [List.length_set]; omega)]
    rw [take_succ_set _ buf i (by omega)]
    rw [List.range_succ_eq_map, List.map_cons, List.map_map]
    have : ((fun t => probeIdx l u m (i + t)) ∘ Nat.succ) =
        (fun t => probeIdx l u m (i + 1 + t)) := by
      funext t
      simp [Function.comp, Nat.add_comm, Nat.add_left_comm]
    simp [this, Nat.add_zero]

theorem setIdxLoop_cons (maxv x : Nat) (xs : List Nat) (cells : List Nat) :
    setIdxLoop maxv (x :: xs) cells = setIdxLoop maxv xs (cells.set x maxv) := rfl

theorem setIdxLoop_length (maxv : Nat) :
    ∀ (idxs cells : List Nat), (setIdxLoop maxv idxs cells).length = cells.length
  | [], _ => rfl
  | x :: xs, cells => by
    rw [setIdxLoop_cons, setIdxLoop_length maxv xs]
    exact List.length_set cells x maxv

theorem setIdxLoop_getD_or (maxv : Nat) :
    ∀ (idxs cells : List Nat) (j : Nat),
      (setIdxLoop maxv idxs cells).getD j 0 = maxv ∨
        (setIdxLoop maxv idxs cells).getD j 0 = cells.getD j 0
  | [], _, _ => Or.inr rfl
  | x :: xs, cells, j => by
    rw [setIdxLoop_cons]
    rcases setIdxLoop_getD_or maxv xs (cells.set x maxv) j with h | h
    · exact Or.inl h
    · rcases getD_set_or cells x j maxv 0 with h' | h'
      · exact Or.inl (h.trans h')
      · exact Or.inr (h.trans h')

theorem setIdxLoop_getD_mem (maxv : Nat) :
    ∀ (idxs cells : List Nat) (j : Nat), j ∈ idxs → j < cells.length →
      (setIdxLoop maxv idxs cells).getD j 0 = maxv
  | [], _, _, hmem, _ => by simp at hmem
  | x :: xs, cells, j, hmem, hlt => by
    rw [setIdxLoop_cons]
    by_cases hx : j ∈ xs
    · exact setIdxLoop_getD_mem maxv xs _ j hx (by simpa using hlt)
    · have hxj : x = j := by
        rcases List.mem_cons.mp hmem with h | h
        · exact h.symm
        · exact absurd h hx
      subst hxj
      rcases setIdxLoop_getD_or maxv xs (cells.set x maxv) x with h | h
      · exact h
      · exact h.trans (getD_set_self hlt)

theorem setLoop_eq (l u m maxv : Nat) :
    ∀ (n i : Nat) (cells : List Nat),
      setLoop l u m maxv n i cells =
        setIdxLoop maxv ((List.range n).map (fun t => probeIdx l u m (i + t))) cells
  | 0, _, cells => rfl
  | n + 1, i, cells => by
    rw [setLoop, setLoop_eq l u m maxv n (i + 1)]
    rw [List.range_succ_eq_map, List.map_cons, List.map_map, setIdxLoop_cons]
    have : ((fun t => probeIdx l u m (i + t)) ∘ Nat.succ) =
        (fun t => probeIdx l u m (i + 1 + t)) := by
      funext t
      simp [Function.comp, Nat.add_comm, Nat.add_left_comm]
    simp [this]

theorem setLoop_length (l u m maxv : Nat) (n i : Nat) (cells : List Nat) :
    (setLoop l u m maxv n i cells).length = cells.length := by
  rw [setLoop_eq]
  exact setIdxLoop_length _ _ _

theorem setLoop_getD (l u m maxv : Nat) (hm : 0 < m) :
    ∀ (n i : Nat) (cells : List Nat) (j : Nat), cells.length = m →
      (setLoop l u m maxv n i cells).getD j 0 =
        if ∃ t, t < n ∧ probeIdx l u m (i + t) = j then maxv else cells.getD j 0
  | 0, i, cells, j, _ => by simp [setLoop]
  | n + 1, i, cells, j, hlen => by
    rw [setLoop, setLoop_getD l u m maxv hm n (i + 1) _ j
      (by rw [List.length_set]; exact hlen)]
    by_cases hlater : ∃ t, t < n ∧ probeIdx l u m (i + 1 + t) = j
    · have : ∃ t, t < n + 1 ∧ probeIdx l u m (i + t) = j := by
        obtain ⟨t, ht, he⟩ := hlater
        exact ⟨t + 1, by omega, by rw [← he]; congr 1; omega⟩
      simp [hlater, this]
    · by_cases hnow : probeIdx l u m i = j
      · have hj : j < cells.length := by
          rw [hlen, ← hnow]
          exact Nat.mod_lt _ hm
        have : ∃ t, t < n + 1 ∧ probeIdx l u m (i + t) = j :=
          ⟨0, Nat.succ_pos n, by simpa using hnow⟩
        simp only [hlater, if_false, this, if_true]
        rw [hnow]
        exact getD_set_self hj
      · have hnone : ¬∃ t, t < n + 1 ∧ probeIdx l u m (i + t) = j := by
          rintro ⟨t, ht, he⟩
          match t with
          | 0 => exact hnow (by simpa using he)
          | t + 1 =>
            exact hlater ⟨t, by omega, by rw [← he]; congr 1; omega⟩
        simp only [hlater, if_false, hnone]
        exact getD_set_ne hnow

theorem decLoop_length (m r : Nat) :
    ∀ (n i : Nat) (cells : List Nat), (decLoop m r n i cells).length = cells.length
  | 0, _, _ => rfl
  | n + 1, i, cells => by
    rw [decLoop]
    by_cases hc : 1 ≤ cells.getD ((r + i) % m) 0
    · rw [if_pos hc, decLoop_length m r n (i + 1), List.length_set]
    · rw [if_neg hc, decLoop_length m r n (i + 1)]

theorem decLoop_getD (m r : Nat) (hm : 0 < m) :
    ∀ (n i : Nat) (cells : List Nat) (j : Nat), cells.length = m → n ≤ m →
      (decLoop m r n i cells).getD j 0 =
        if ∃ t, t < n ∧ (r + i + t) % m = j then cells.getD j 0 - 1 else cells.getD j 0
  | 0, i, cells, j, _, _ => by simp [decLoop]
  | n + 1, i, cells, j, hlen, hn => by
    have hlen' : (if 1 ≤ cells.getD ((r + i) % m) 0
        then cells.set ((r + i) % m) (cells.getD ((r + i) % m) 0 - 1)
        else cells).length = m := by
      split
      · rw [List.length_set]; exact hlen
      · exact hlen
    rw [decLoop, decLoop_getD m r hm n (i + 1) _ j hlen' (by omega)]
    by_cases hnow : (r + i) % m = j
    · -- the window cannot revisit cell `j`: a second hit needs `m ∣ 1 + t`
      -- with `0 < 1 + t ≤ n < m`
      have hlater : ¬∃ t, t < n ∧ (r + (i + 1) + t) % m = j := by
        rintro ⟨t, ht, he⟩
        have hmod : (r + i) % m = (r + i + (1 + t)) % m := by
          rw [hnow, ← he]; congr 1; omega
        have hdvd : m ∣ 1 + t := by
          have := (Nat.modEq_iff_dvd' (by omega : r + i ≤ r + i + (1 + t))).mp hmod
          simpa using this
        have := Nat.le_of_dvd (by omega) hdvd
        omega
      have hcond : ∃ t, t < n + 1 ∧ (r + i + t) % m = j :=
        ⟨0, Nat.succ_pos n, by simpa using hnow⟩
      rw [if_neg hlater, if_pos hcond]
      by_cases hc : 1 ≤ cells.getD ((r + i) % m) 0
      · rw [if_pos hc, hnow]
        exact getD_set_self (by rw [hlen, ← hnow]; exact Nat.mod_lt _ hm)
      · rw [if_neg hc]
        rw [hnow] at hc
        omega
    · have hset : (if 1 ≤ cells.getD ((r + i) % m) 0
          then cells.set ((r + i) % m) (cells.getD ((r + i) % m) 0 - 1)
          else cells).getD j 0 = cells.getD j 0 := by
        split
        · exact getD_set_ne hnow
        · rfl
      have hiff : (∃ t, t < n ∧ (r + (i + 1) + t) % m = j) ↔
          (∃ t, t < n + 1 ∧ (r + i + t) % m = j) := by
        constructor
        · rintro ⟨t, ht, he⟩
          exact ⟨t + 1, by omega, by rw [← he]; congr 1; omega⟩
        · rintro ⟨t, ht, he⟩
          match t with
          | 0 => exact absurd (by simpa using he) hnow
          | t + 1 => exact ⟨t, by omega, by rw [← he]; congr 1; omega⟩
      by_cases hlater : ∃ t, t < n ∧ (r + (i + 1) + t) % m = j
      · rw [if_pos hlater, if_pos (hiff.mp hlater), hset]
      · rw [if_neg hlater, if_neg (fun hc => hlater (hiff.mpr hc)), hset]

/-! ### Field and state preservation across operations -/

theorem hashKernel_fst (s : StableBloomFilter) (x : List Nat)
    (hh : s.hashState = fnv64Offset) : (s.hashKernel x).1 = kernelOf x := by
  simp [StableBloomFilter.hashKernel, kernelOf, hh, fnv64]

theorem hashKernel_snd (s : StableBloomFilter) (x : List Nat) :
    (s.hashKernel x).2 = { s with hashState := fnv64Offset } := rfl

theorem runOp_m (s : StableBloomFilter) (op : SBFOp) : (runOp s op).m = s.m := by
  cases op <;> rfl

theorem runOp_p (s : StableBloomFilter) (op : SBFOp) : (runOp s op).p = s.p := by
  cases op <;> rfl

theorem runOp_k (s : StableBloomFilter) (op : SBFOp) : (runOp s op).k = s.k := by
  cases op <;> rfl

theorem runOp_max (s : StableBloomFilter) (op : SBFOp) : (runOp s op).max = s.max := by
  cases op <;> rfl

theorem runOp_hashState (s : StableBloomFilter) (op : SBFOp) :
    (runOp s op).hashState = fnv64Offset := by
  cases op <;> rfl

theorem Test_cells (s : StableBloomFilter) (d : List Nat) : (s.Test d).2.cells = s.cells := rfl

theorem Test_fst (s : StableBloomFilter) (d : List Nat) :
    (s.Test d).1 =
      (testLoop s.cells (s.hashKernel d).1.1 (s.hashKernel d).1.2 s.m s.k 0
        s.indexBuffer true).1 := rfl

theorem Test_indexBuffer (s : StableBloomFilter) (d : List Nat) :
    (s.Test d).2.indexBuffer =
      (testLoop s.cells (s.hashKernel d).1.1 (s.hashKernel d).1.2 s.m s.k 0
        s.indexBuffer true).2 := rfl

theorem Add_cells (s : StableBloomFilter) (r : Nat) (d : List Nat) :
    (s.Add r d).cells =
      setLoop (s.hashKernel d).1.1 (s.hashKernel d).1.2 s.m s.max s.k 0
        (decLoop s.m r s.p 0 s.cells) := rfl

theorem Add_indexBuffer (s : StableBloomFilter) (r : Nat) (d : List Nat) :
    (s.Add r d).indexBuffer = s.indexBuffer := rfl

theorem TestAndAdd_fst (s : StableBloomFilter) (r : Nat) (d : List Nat) :
    (s.TestAndAdd r d).1 =
      (testLoop s.cells (s.hashKernel d).1.1 (s.hashKernel d).1.2 s.m s.k 0
        s.indexBuffer true).1 := rfl

theorem TestAndAdd_indexBuffer (s : StableBloomFilter) (r : Nat) (d : List Nat) :
    (s.TestAndAdd r d).2.indexBuffer =
      (testLoop s.cells (s.hashKernel d).1.1 (s.hashKernel d).1.2 s.m s.k 0
        s.indexBuffer true).2 := rfl

theorem TestAndAdd_cells (s : StableBloomFilter) (r : Nat) (d : List Nat) :
    (s.TestAndAdd r d).2.cells =
      setIdxLoop s.max
        (testLoop s.cells (s.hashKernel d).1.1 (s.hashKernel d).1.2 s.m s.k 0
          s.indexBuffer true).2
        (decLoop s.m r s.p 0 s.cells) := rfl

theorem runOp_cells_length (s : StableBloomFilter) (op : SBFOp) :
    (runOp s op).cells.length = s.cells.length := by
  cases op with
  | test d => rfl
  | add r d =>
    show (s.Add r d).cells.length = s.cells.length
    rw [Add_cells, setLoop_length, decLoop_length]
  | testAndAdd r d =>
    show (s.TestAndAdd r d).2.cells.length = s.cells.length
    rw [TestAndAdd_cells, setIdxLoop_length, decLoop_length]

theorem setLoop_getD_or (l u m maxv : Nat) (n i : Nat) (cells : List Nat) (j : Nat) :
    (setLoop l u m maxv n i cells).getD j 0 = maxv ∨
      (setLoop l u m maxv n i cells).getD j 0 = cells.getD j 0 := by
  rw [setLoop_eq]
  exact setIdxLoop_getD_or maxv _ cells j

theorem decLoop_p0 (m r : Nat) (cells : List Nat) : decLoop m r 0 0 cells = cells := rfl

theorem runOp_cells_pos (s : StableBloomFilter) (op : SBFOp) (j : Nat)
    (hp : s.p = 0) (hmax : 1 ≤ s.max) (h : 1 ≤ s.cells.getD j 0) :
    1 ≤ (runOp s op).cells.getD j 0 := by
  cases op with
  | test d => exact h
  | add r d =>
    show 1 ≤ (s.Add r d).cells.getD j 0
    rw [Add_cells, hp, decLoop_p0]
    rcases setLoop_getD_or (s.hashKernel d).1.1 (s.hashKernel d).1.2 s.m s.max s.k 0
        s.cells j with he | he
    · omega
    · omega
  | testAndAdd r d =>
    show 1 ≤ (s.TestAndAdd r d).2.cells.getD j 0
    rw [TestAndAdd_cells, hp, decLoop_p0]
    rcases setIdxLoop_getD_or s.max
        (testLoop s.cells (s.hashKernel d).1.1 (s.hashKernel d).1.2 s.m s.k 0
          s.indexBuffer true).2 s.cells j with he | he
    · omega
    · omega

theorem runOps_cons (s : StableBloomFilter) (op : SBFOp) (ops : List SBFOp) :
    runOps s (op :: ops) = runOps (runOp s op) ops := rfl

theorem runOps_m (ops : List SBFOp) (s : StableBloomFilter) : (runOps s ops).m = s.m := by
  induction ops generalizing s with
  | nil => rfl
  | cons op ops ih => rw [runOps_cons, ih, runOp_m]

theorem runOps_p (ops : List SBFOp) (s : StableBloomFilter) : (runOps s ops).p = s.p := by
  induction ops generalizing s with
  | nil => rfl
  | cons op ops ih => rw [runOps_cons, ih, runOp_p]

theorem runOps_k (ops : List SBFOp) (s : StableBloomFilter) : (runOps s ops).k = s.k := by
  induction ops generalizing s with
  | nil => rfl
  | cons op ops ih => rw [runOps_cons, ih, runOp_k]

theorem runOps_max (ops : List SBFOp) (s : StableBloomFilter) : (runOps s ops).max = s.max := by
  induction ops generalizing s with
  | nil => rfl
  | cons op ops ih => rw [runOps_cons, ih, runOp_max]

theorem runOps_hashState (ops : List SBFOp) (s : StableBloomFilter)
    (hh : s.hashState = fnv64Offset) : (runOps s ops).hashState = fnv64Offset := by
  induction ops generalizing s with
  | nil => exact hh
  | cons op ops ih => rw [runOps_cons]; exact ih _ (runOp_hashState s op)

theorem runOps_cells_pos (ops : List SBFOp) (s : StableBloomFilter) (j : Nat)
    (hp : s.p = 0) (hmax : 1 ≤ s.max) (h : 1 ≤ s.cells.getD j 0) :
    1 ≤ (runOps s ops).cells.getD j 0 := by
  induction ops generalizing s with
  | nil => exact h
  | cons op ops ih =>
    rw [runOps_cons]
    exact ih (runOp s op) ((runOp_p s op).trans hp)
      ((runOp_max s op).symm ▸ hmax) (runOp_cells_pos s op j hp hmax h)

theorem runOps_cells_length (ops : List SBFOp) (s : StableBloomFilter) :
    (runOps s ops).cells.length = s.cells.length := by
  induction ops generalizing s with
  | nil => rfl
  | cons op ops ih => rw [runOps_cons, ih, runOp_cells_length]

theorem Test_fst_true_iff (s : StableBloomFilter) (x : List Nat) :
    (s.Test x).1 = true ↔
      ∀ i, i < s.k →
        s.cells.getD (probeIdx (s.hashKernel x).1.1 (s.hashKernel x).1.2 s.m i) 0 ≠ 0 := by
  rw [Test_fst, testLoop_fst]
  simp [Nat.zero_add]

theorem Add_probes_pos (s : StableBloomFilter) (r : Nat) (x : List Nat)
    (hm : 0 < s.m) (hlen : s.cells.length = s.m) (hmax : 1 ≤ s.max)
    (i : Nat) (hi : i < s.k) :
    1 ≤ (s.Add r x).cells.getD
      (probeIdx (s.hashKernel x).1.1 (s.hashKernel x).1.2 s.m i) 0 := by
  rw [Add_cells, setLoop_getD _ _ _ _ hm s.k 0 _ _ (by rw [decLoop_length]; exact hlen)]
  rw [if_pos ⟨i, hi, by rw [Nat.zero_add]⟩]
  exact hmax

theorem TestAndAdd_probes_pos (s : StableBloomFilter) (r : Nat) (x : List Nat)
    (hm : 0 < s.m) (hlen : s.cells.length = s.m) (hmax : 1 ≤ s.max)
    (hbuf : s.indexBuffer.length = s.k) (i : Nat) (hi : i < s.k) :
    1 ≤ (s.TestAndAdd r x).2.cells.getD
      (probeIdx (s.hashKernel x).1.1 (s.hashKernel x).1.2 s.m i) 0 := by
  rw [TestAndAdd_cells,
    testLoop_snd s.cells (s.hashKernel x).1.1 (s.hashKernel x).1.2 s.m s.k 0
      s.indexBuffer true (by omega)]
  rw [setIdxLoop_getD_mem s.max _ _ _
    (by
      simp only [List.take_zero, List.nil_append, List.mem_map, List.mem_range]
      exact ⟨i, hi, by rw [Nat.zero_add]⟩)
    (by rw [decLoop_length, hlen]; exact Nat.mod_lt _ hm)]
  exact hmax

theorem Add_m (s : StableBloomFilter) (r : Nat) (d : List Nat) : (s.Add r d).m = s.m := rfl

theorem Add_p (s : StableBloomFilter) (r : Nat) (d : List Nat) : (s.Add r d).p = s.p := rfl

theorem Add_k (s : StableBloomFilter) (r : Nat) (d : List Nat) : (s.Add r d).k = s.k := rfl

theorem Add_max (s : StableBloomFilter) (r : Nat) (d : List Nat) : (s.Add r d).max = s.max := rfl

theorem TestAndAdd_m (s : StableBloomFilter) (r : Nat) (d : List Nat) :
    (s.TestAndAdd r d).2.m = s.m := rfl

theorem TestAndAdd_p (s : StableBloomFilter) (r : Nat) (d : List Nat) :
    (s.TestAndAdd r d).2.p = s.p := rfl

theorem TestAndAdd_k (s : StableBloomFilter) (r : Nat) (d : List Nat) :
    (s.TestAndAdd r d).2.k = s.k := rfl

theorem TestAndAdd_max (s : StableBloomFilter) (r : Nat) (d : List Nat) :
    (s.TestAndAdd r d).2.max = s.max := rfl

theorem Add_hashState (s : StableBloomFilter) (r : Nat) (d : List Nat) :
    (s.Add r d).hashState = fnv64Offset := rfl

theorem TestAndAdd_hashState (s : StableBloomFilter) (r : Nat) (d : List Nat) :
    (s.TestAndAdd r d).2.hashState = fnv64Offset := rfl

theorem Test_hashState (s : StableBloomFilter) (d : List Nat) :
    (s.Test d).2.hashState = fnv64Offset := rfl

theorem Test_m (s : StableBloomFilter) (d : List Nat) : (s.Test d).2.m = s.m := rfl

theorem Test_p (s : StableBloomFilter) (d : List Nat) : (s.Test d).2.p = s.p := rfl

theorem Test_k (s : StableBloomFilter) (d : List Nat) : (s.Test d).2.k = s.k := rfl

theorem Test_max (s : StableBloomFilter) (d : List Nat) : (s.Test d).2.max = s.max := rfl

theorem StableBloomFilter.fieldExt (a b : StableBloomFilter)
    (h1 : a.cells = b.cells) (h2 : a.hashState = b.hashState) (h3 : a.m = b.m)
    (h4 : a.p = b.p) (h5 : a.k = b.k) (h6 : a.max = b.max)
    (h7 : a.indexBuffer = b.indexBuffer) : a = b := by
  cases a
  cases b
  simp_all

theorem beUint32_drop_lt (h : Nat) : beUint32 ((sumBytes64 h).drop 4) < 2 ^ 32 := by
  show h / 2 ^ 24 % 256 * 2 ^ 24 + h / 2 ^ 16 % 256 * 2 ^ 16 + h / 2 ^ 8 % 256 * 2 ^ 8 +
    h % 256 < 2 ^ 32
  omega

theorem beUint32_take_lt (h : Nat) : beUint32 ((sumBytes64 h).take 4) < 2 ^ 32 := by
  show h / 2 ^ 56 % 256 * 2 ^ 24 + h / 2 ^ 48 % 256 * 2 ^ 16 + h / 2 ^ 40 % 256 * 2 ^ 8 +
    h / 2 ^ 32 % 256 < 2 ^ 32
  omega

theorem probeIdx_small (l u m i : Nat) (hl : l < 2 ^ 32) (hu : u < 2 ^ 32)
    (hi : i < 2 ^ 32) : probeIdx l u m i = (l + u * i) % m := by
  have h1 : u * i ≤ (2 ^ 32 - 1) * (2 ^ 32 - 1) :=
    Nat.mul_le_mul (by omega) (by omega)
  have h2 : (l + u * i) % 2 ^ 64 = l + u * i := Nat.mod_eq_of_lt (by omega)
  show (l + u * i) % u64 % m = (l + u * i) % m
  rw [show u64 = 2 ^ 64 from rfl, h2]

theorem probeMap_eq (l u m k : Nat) (hl : l < 2 ^ 32) (hu : u < 2 ^ 32)
    (hk : k ≤ 2 ^ 32) :
    (List.range k).map (fun t => probeIdx l u m (0 + t)) =
      (List.range k).map (fun i => (l + u * i) % m) := by
  apply List.map_congr_left
  intro a ha
  rw [Nat.zero_add,
    probeIdx_small l u m a hl hu (lt_of_lt_of_le (List.mem_range.mp ha) hk)]

theorem kernelOf_eq (x : List Nat) :
    kernelOf x =
      (beUint32 ((sumBytes64 (fnv64 x)).drop 4),
        beUint32 ((sumBytes64 (fnv64 x)).take 4)) := rfl

/-! ### Claim theorems -/

/-- Claim C2: `Add` first performs the eviction step and then sets the k
probe cells to `max`: the new cell array is the probe-set pass applied to
the decremented array, and pointwise a cell `j` becomes `max` when `j` is a
probe index, otherwise is decremented by one — clamped at zero — when `j`
lies in the window `{r, r+1, …, r+p-1} mod m`, and otherwise is unchanged. -/
theorem stable_add_evicts_then_sets (s : StableBloomFilter) (r : Nat) (x : List Nat)
    (j : Nat) (hm : 0 < s.m) (hlen : s.cells.length = s.m) (hp : s.p ≤ s.m)
    (hr : r < s.m) :
    (s.Add r x).cells =
        setLoop (s.hashKernel x).1.1 (s.hashKernel x).1.2 s.m s.max s.k 0
          (s.decrement r).cells ∧
      (s.Add r x).cells.getD j 0 =
        (if ∃ t, t < s.k ∧ probeIdx (s.hashKernel x).1.1 (s.hashKernel x).1.2 s.m t = j
         then s.max
         else if ∃ t, t < s.p ∧ (r + t) % s.m = j
         then (if 1 ≤ s.cells.getD j 0 then s.cells.getD j 0 - 1 else s.cells.getD j 0)
         else s.cells.getD j 0) := by
  refine ⟨rfl, ?_⟩
  rw [Add_cells, setLoop_getD _ _ _ _ hm s.k 0 _ j (by rw [decLoop_length]; exact hlen)]
  have hzero : (∃ t, t < s.k ∧
      probeIdx (s.hashKernel x).1.1 (s.hashKernel x).1.2 s.m (0 + t) = j) ↔
      (∃ t, t < s.k ∧ probeIdx (s.hashKernel x).1.1 (s.hashKernel x).1.2 s.m t = j) := by
    simp [Nat.zero_add]
  by_cases hA : ∃ t, t < s.k ∧ probeIdx (s.hashKernel x).1.1 (s.hashKernel x).1.2 s.m t = j
  · rw [if_pos (hzero.mpr hA), if_pos hA]
  · rw [if_neg (fun hc => hA (hzero.mp hc)), if_neg hA]
    rw [decLoop_getD s.m r hm s.p 0 s.cells j hlen hp]
    have hzero' : (∃ t, t < s.p ∧ (r + 0 + t) % s.m = j) ↔
        (∃ t, t < s.p ∧ (r + t) % s.m = j) := by
      simp [Nat.add_zero]
    by_cases hB : ∃ t, t < s.p ∧ (r + t) % s.m = j
    · rw [if_pos (hzero'.mpr hB), if_pos hB]
      split <;> omega
    · rw [if_neg (fun hc => hB (hzero'.mp hc)), if_neg hB]

/-- Witness for C2 at a concrete filter, draw, key and cell index. -/
theorem stable_add_evicts_then_sets_witness :
    0 < (NewStableBloomFilter 5 2 3 2).m ∧
      (NewStableBloomFilter 5 2 3 2).cells.length = (NewStableBloomFilter 5 2 3 2).m ∧
      (NewStableBloomFilter 5 2 3 2).p ≤ (NewStableBloomFilter 5 2 3 2).m ∧
      4 < (NewStableBloomFilter 5 2 3 2).m ∧
      ((NewStableBloomFilter 5 2 3 2).Add 4 [7]).cells.getD 0 0 =
        (if ∃ t, t < (NewStableBloomFilter 5 2 3 2).k ∧
            probeIdx ((NewStableBloomFilter 5 2 3 2).hashKernel [7]).1.1
              ((NewStableBloomFilter 5 2 3 2).hashKernel [7]).1.2
              (NewStableBloomFilter 5 2 3 2).m t = 0
         then (NewStableBloomFilter 5 2 3 2).max
         else if ∃ t, t < (NewStableBloomFilter 5 2 3 2).p ∧
            (4 + t) % (NewStableBloomFilter 5 2 3 2).m = 0
         then (if 1 ≤ (NewStableBloomFilter 5 2 3 2).cells.getD 0 0
               then (NewStableBloomFilter 5 2 3 2).cells.getD 0 0 - 1
               else (NewStableBloomFilter 5 2 3 2).cells.getD 0 0)
         else (NewStableBloomFilter 5 2 3 2).cells.getD 0 0) := by
  refine ⟨by decide, by decide, by decide, by decide, ?_⟩
  exact (stable_add_evicts_then_sets (NewStableBloomFilter 5 2 3 2) 4 [7] 0
    (by decide) (by decide) (by decide) (by decide)).2

/-- Claim C4: the probe indices used by `Test`, `Add` and `TestAndAdd` are
exactly `(lower + upper*i) mod m` for `i < k`, where `lower` is the
big-endian 32-bit value of digest bytes `[4..8)` and `upper` that of bytes
`[0..4)` of the FNV-64 digest of the key, and every call leaves the hash
state back at the offset basis, so the same key always yields the same
`(lower, upper)` pair. -/
theorem stable_probe_index_set (s : StableBloomFilter) (x : List Nat) (r : Nat)
    (hh : s.hashState = fnv64Offset) (hbuf : s.indexBuffer.length = s.k)
    (hk : s.k ≤ 2 ^ 32) :
    (s.Test x).2.indexBuffer =
        (List.range s.k).map (fun i =>
          (beUint32 ((sumBytes64 (fnv64 x)).drop 4) +
            beUint32 ((sumBytes64 (fnv64 x)).take 4) * i) % s.m) ∧
      (s.TestAndAdd r x).2.indexBuffer =
        (List.range s.k).map (fun i =>
          (beUint32 ((sumBytes64 (fnv64 x)).drop 4) +
            beUint32 ((sumBytes64 (fnv64 x)).take 4) * i) % s.m) ∧
      (s.Add r x).cells =
        setIdxLoop s.max
          ((List.range s.k).map (fun i =>
            (beUint32 ((sumBytes64 (fnv64 x)).drop 4) +
              beUint32 ((sumBytes64 (fnv64 x)).take 4) * i) % s.m))
          (s.decrement r).cells ∧
      (s.Test x).2.hashState = fnv64Offset ∧
      (s.Add r x).hashState = fnv64Offset ∧
      (s.TestAndAdd r x).2.hashState = fnv64Offset := by
  have hker := hashKernel_fst s x hh
  have hL := beUint32_drop_lt (fnv64 x)
  have hU := beUint32_take_lt (fnv64 x)
  have hmap := probeMap_eq (beUint32 ((sumBytes64 (fnv64 x)).drop 4))
    (beUint32 ((sumBytes64 (fnv64 x)).take 4)) s.m s.k hL hU hk
  refine ⟨?_, ?_, ?_, rfl, rfl, rfl⟩
  · rw [Test_indexBuffer,
      testLoop_snd s.cells (s.hashKernel x).1.1 (s.hashKernel x).1.2 s.m s.k 0
        s.indexBuffer true (by omega)]
    rw [hker, kernelOf_eq]
    simpa using hmap
  · rw [TestAndAdd_indexBuffer,
      testLoop_snd s.cells (s.hashKernel x).1.1 (s.hashKernel x).1.2 s.m s.k 0
        s.indexBuffer true (by omega)]
    rw [hker, kernelOf_eq]
    simpa using hmap
  · rw [Add_cells, setLoop_eq, hker, kernelOf_eq]
    rw [hmap]
    rfl

/-- Witness for C4 at a concrete filter and key. -/
theorem stable_probe_index_set_witness :
    (NewStableBloomFilter 5 2 3 1).hashState = fnv64Offset ∧
      (NewStableBloomFilter 5 2 3 1).indexBuffer.length = (NewStableBloomFilter 5 2 3 1).k ∧
      (NewStableBloomFilter 5 2 3 1).k ≤ 2 ^ 32 ∧
      ((NewStableBloomFilter 5 2 3 1).Test [8]).2.indexBuffer =
        (List.range (NewStableBloomFilter 5 2 3 1).k).map (fun i =>
          (beUint32 ((sumBytes64 (fnv64 [8])).drop 4) +
            beUint32 ((sumBytes64 (fnv64 [8])).take 4) * i) %
            (NewStableBloomFilter 5 2 3 1).m) := by
  refine ⟨by decide, by decide, by decide, ?_⟩
  exact (stable_probe_index_set (NewStableBloomFilter 5 2 3 1) [8] 0
    (by decide) (by decide) (by decide)).1

/-- Claim C5: with the same random draw, `TestAndAdd` returns the boolean
`Test` would return on the pre-state and leaves the filter in exactly the
state that `Test` followed by `Add` would produce. -/
theorem testAndAdd_eq_test_then_add (s : StableBloomFilter) (r : Nat) (x : List Nat)
    (hh : s.hashState = fnv64Offset) (hbuf : s.indexBuffer.length = s.k) :
    (s.TestAndAdd r x).1 = (s.Test x).1 ∧
      (s.TestAndAdd r x).2 = ((s.Test x).2).Add r x := by
  constructor
  · rfl
  · apply StableBloomFilter.fieldExt
    · rw [TestAndAdd_cells, Add_cells, Test_cells, Test_m, Test_p, Test_max, Test_k]
      rw [testLoop_snd s.cells (s.hashKernel x).1.1 (s.hashKernel x).1.2 s.m s.k 0
        s.indexBuffer true (by omega)]
      rw [setLoop_eq]
      rw [hashKernel_fst s x hh, hashKernel_fst (s.Test x).2 x (Test_hashState s x)]
      simp
    · rw [TestAndAdd_hashState, Add_hashState]
    · rw [TestAndAdd_m, Add_m, Test_m]
    · rw [TestAndAdd_p, Add_p, Test_p]
    · rw [TestAndAdd_k, Add_k, Test_k]
    · rw [TestAndAdd_max, Add_max, Test_max]
    · rw [TestAndAdd_indexBuffer, Add_indexBuffer, Test_indexBuffer]

/-- Witness for C5 at a concrete filter, draw and key. -/
theorem testAndAdd_eq_test_then_add_witness :
    (NewStableBloomFilter 5 2 3 1).hashState = fnv64Offset ∧
      (NewStableBloomFilter 5 2 3 1).indexBuffer.length = (NewStableBloomFilter 5 2 3 1).k ∧
      ((NewStableBloomFilter 5 2 3 1).TestAndAdd 2 [8]).1 =
        ((NewStableBloomFilter 5 2 3 1).Test [8]).1 ∧
      ((NewStableBloomFilter 5 2 3 1).TestAndAdd 2 [8]).2 =
        (((NewStableBloomFilter 5 2 3 1).Test [8]).2).Add 2 [8] := by
  obtain ⟨h1, h2⟩ := testAndAdd_eq_test_then_add (NewStableBloomFilter 5 2 3 1) 2 [8]
    (by decide) (by decide)
  exact ⟨by decide, by decide, h1, h2⟩

/-- Claim C3: in the classic/unstable configuration (`p = 0`, cells set to a
positive `max`), once `Add(x)` (or `TestAndAdd(x)`) has run, every later
`Test(x)` returns `true` after any interleaving of `Test`/`Add`/`TestAndAdd`
operations on other keys (with arbitrary random draws) and no `Reset`. -/
theorem classic_no_false_negatives (s : StableBloomFilter) (x : List Nat) (r : Nat)
    (ops : List SBFOp) (hp : s.p = 0) (hmax : 1 ≤ s.max) (hm : 0 < s.m)
    (hlen : s.cells.length = s.m) (hh : s.hashState = fnv64Offset)
    (hbuf : s.indexBuffer.length = s.k) :
    ((runOps (s.Add r x) ops).Test x).1 = true ∧
      ((runOps (s.TestAndAdd r x).2 ops).Test x).1 = true := by
  constructor
  · rw [Test_fst_true_iff]
    intro i hi
    rw [hashKernel_fst _ _ (runOps_hashState ops _ (Add_hashState s r x))]
    rw [runOps_m, Add_m]
    have hstart : 1 ≤ (s.Add r x).cells.getD (probeIdx (kernelOf x).1 (kernelOf x).2 s.m i) 0 := by
      have := Add_probes_pos s r x hm hlen hmax i
        (by rw [runOps_k, Add_k] at hi; exact hi)
      rwa [hashKernel_fst s x hh] at this
    have := runOps_cells_pos ops (s.Add r x)
      (probeIdx (kernelOf x).1 (kernelOf x).2 s.m i)
      ((Add_p s r x).trans hp) ((Add_max s r x).symm ▸ hmax) hstart
    omega
  · rw [Test_fst_true_iff]
    intro i hi
    rw [hashKernel_fst _ _ (runOps_hashState ops _ (TestAndAdd_hashState s r x))]
    rw [runOps_m, TestAndAdd_m]
    have hstart : 1 ≤ (s.TestAndAdd r x).2.cells.getD
        (probeIdx (kernelOf x).1 (kernelOf x).2 s.m i) 0 := by
      have := TestAndAdd_probes_pos s r x hm hlen hmax hbuf i
        (by rw [runOps_k, TestAndAdd_k] at hi; exact hi)
      rwa [hashKernel_fst s x hh] at this
    have := runOps_cells_pos ops (s.TestAndAdd r x).2
      (probeIdx (kernelOf x).1 (kernelOf x).2 s.m i)
      ((TestAndAdd_p s r x).trans hp)
      ((TestAndAdd_max s r x).symm ▸ hmax) hstart
    omega

/-- Witness for C3 at a concrete unstable filter, key, draw and op sequence. -/
theorem classic_no_false_negatives_witness :
    (NewUnstableBloomFilter 10 3).p = 0 ∧ 1 ≤ (NewUnstableBloomFilter 10 3).max ∧
      0 < (NewUnstableBloomFilter 10 3).m ∧
      (NewUnstableBloomFilter 10 3).cells.length = (NewUnstableBloomFilter 10 3).m ∧
      (NewUnstableBloomFilter 10 3).hashState = fnv64Offset ∧
      (NewUnstableBloomFilter 10 3).indexBuffer.length = (NewUnstableBloomFilter 10 3).k ∧
      ((runOps ((NewUnstableBloomFilter 10 3).Add 4 [1, 2, 3])
          [.add 7 [9, 9], .testAndAdd 1 [3], .test [5]]).Test [1, 2, 3]).1 = true := by
  refine ⟨by decide, by decide, by decide, by decide, by decide, by decide, ?_⟩
  exact (classic_no_false_negatives (NewUnstableBloomFilter 10 3) [1, 2, 3] 4
    [.add 7 [9, 9], .testAndAdd 1 [3], .test [5]]
    (by decide) (by decide) (by decide) (by decide) (by decide) (by decide)).1

/-- Claim C8: `NewStableBloomFilter` clamps `p` and `k` to at most `m` and
never fails, and in every state reachable by any operation sequence the
stored `p` and `k` never exceed `m`. -/
theorem new_stable_clamps_k_p (size k p max : Nat) (ops : List SBFOp) :
    (runOps (NewStableBloomFilter size k p max) ops).m = size ∧
      (runOps (NewStableBloomFilter size k p max) ops).p = min p size ∧
      (runOps (NewStableBloomFilter size k p max) ops).k = min k size ∧
      (runOps (NewStableBloomFilter size k p max) ops).p ≤
        (runOps (NewStableBloomFilter size k p max) ops).m ∧
      (runOps (NewStableBloomFilter size k p max) ops).k ≤
        (runOps (NewStableBloomFilter size k p max) ops).m := by
  have hm : (NewStableBloomFilter size k p max).m = size := rfl
  have hp : (NewStableBloomFilter size k p max).p = min p size := by
    show (if p > size then size else p) = min p size
    split <;> omega
  have hk : (NewStableBloomFilter size k p max).k = min k size := by
    show (if k > size then size else k) = min k size
    split <;> omega
  refine ⟨by rw [runOps_m, hm], by rw [runOps_p, hp], by rw [runOps_k, hk], ?_, ?_⟩
  · rw [runOps_p, runOps_m, hp, hm]
    omega
  · rw [runOps_k, runOps_m, hk, hm]
    omega

/-- Claim C9: `StablePoint` computes `(1/(1 + 1/(p*(1/k - 1/m))))^max`
(float64 embedded as extended nonnegative reals), and for the classic
configuration `p = 0` (with `k, m, max ≥ 1`) it is 0, in which case
`FalsePositiveRate = (1 - StablePoint)^k` equals 1. -/
theorem stable_point_formula (s : StableBloomFilter) :
    s.StablePoint =
        (1 / (1 + 1 /
          ((s.p : ENNReal) * (1 / (s.k : ENNReal) - 1 / (s.m : ENNReal))))) ^ s.max ∧
      (s.p = 0 → 1 ≤ s.k → 1 ≤ s.m → 1 ≤ s.max →
        s.StablePoint = 0 ∧ s.FalsePositiveRate = 1) := by
  refine ⟨rfl, fun hp _hk _hm hmax => ?_⟩
  have hsp : s.StablePoint = 0 := by
    simp only [StableBloomFilter.StablePoint, hp, Nat.cast_zero, zero_mul]
    rw [ENNReal.div_zero one_ne_zero]
    have htop : (1 : ENNReal) + ⊤ = ⊤ := by simp
    rw [htop, ENNReal.div_top]
    exact zero_pow (by omega)
  refine ⟨hsp, ?_⟩
  rw [StableBloomFilter.FalsePositiveRate, hsp]
  simp

/-- Witness for C9 at the unstable (classic) construction. -/
theorem stable_point_formula_witness :
    (NewUnstableBloomFilter 10 3).p = 0 ∧ 1 ≤ (NewUnstableBloomFilter 10 3).k ∧
      1 ≤ (NewUnstableBloomFilter 10 3).m ∧ 1 ≤ (NewUnstableBloomFilter 10 3).max ∧
      (NewUnstableBloomFilter 10 3).StablePoint = 0 ∧
      (NewUnstableBloomFilter 10 3).FalsePositiveRate = 1 := by
  obtain ⟨hsp, hfpr⟩ := (stable_point_formula (NewUnstableBloomFilter 10 3)).2
    (by decide) (by decide) (by decide) (by decide)
  exact ⟨by decide, by decide, by decide, by decide, hsp, hfpr⟩

theorem clog2Aux_eq (fuel : Nat) :
    ∀ n : Nat, n ≤ fuel → clog2Aux fuel n = Nat.clog 2 n := by
  induction fuel with
  | zero =>
    intro n h
    have hn : n = 0 := by omega
    subst hn
    rw [Nat.clog_of_right_le_one (by omega)]
    rfl
  | succ fuel ih =>
    intro n h
    rw [clog2Aux]
    by_cases hn : n ≤ 1
    · rw [if_pos hn, Nat.clog_of_right_le_one hn]
    · have hhalf : (n + 1) / 2 ≤ fuel := by omega
      rw [if_neg hn, ih _ hhalf]
      have hcl : Nat.clog 2 n = Nat.clog 2 ((n + 1) / 2) + 1 := by
        rw [Nat.clog_of_two_le (by norm_num) (by omega)]
        have h21 : n + 2 - 1 = n + 1 := by omega
        rw [h21]
      rw [hcl]

theorem clog2Go_eq (n : Nat) : clog2Go n = Nat.clog 2 n := clog2Aux_eq n n le_rfl

/-- Claim C6: `NewInverseBloomFilter size` errors exactly when `size ≤ 0` or
`size > 2^30`, and on success the filter's `Size` is the least power of two
that is at least the requested size. -/
theorem new_inverse_size_spec (size : Int) :
    ((NewInverseBloomFilter size).isOk = true ↔ 0 < size ∧ size ≤ 2 ^ 30) ∧
      (∀ f, NewInverseBloomFilter size = .ok f →
        (∃ e, f.Size = 2 ^ e) ∧ size ≤ (f.Size : Int) ∧
          ∀ j : Nat, size ≤ (2 : Int) ^ j → f.Size ≤ 2 ^ j) := by
  have hms : (maxSize : Int) = 1073741824 := by norm_num [maxSize]
  have hpow : (2 : Int) ^ 30 = 1073741824 := by norm_num
  unfold NewInverseBloomFilter
  by_cases h1 : size > (maxSize : Int)
  · rw [if_pos h1]
    refine ⟨?_, fun f hf => by simp at hf⟩
    simp only [Except.isOk, Except.toBool]
    constructor
    · intro hfalse
      simp at hfalse
    · rintro ⟨_, hle⟩
      rw [hpow] at hle
      omega
  · rw [if_neg h1]
    by_cases h2 : size ≤ 0
    · rw [if_pos h2]
      refine ⟨?_, fun f hf => by simp at hf⟩
      simp only [Except.isOk, Except.toBool]
      constructor
      · intro hfalse
        simp at hfalse
      · rintro ⟨hlt, _⟩
        omega
    · rw [if_neg h2]
      refine ⟨⟨fun _ => ⟨by omega, by rw [hpow]; omega⟩, fun _ => rfl⟩, fun f hf => ?_⟩
      have hf2 : InverseBloomFilter.mk
          (List.replicate (2 ^ clog2Go size.toNat) none)
          (2 ^ clog2Go size.toNat - 1) = f := Except.ok.inj hf
      subst hf2
      have hsz : InverseBloomFilter.Size
          (InverseBloomFilter.mk (List.replicate (2 ^ clog2Go size.toNat) none)
            (2 ^ clog2Go size.toNat - 1)) = 2 ^ Nat.clog 2 size.toNat := by
        show (List.replicate (2 ^ clog2Go size.toNat) (none : Option (List Nat))).length =
          2 ^ Nat.clog 2 size.toNat
        rw [List.length_replicate, clog2Go_eq]
      rw [hsz]
      have htn : (size.toNat : Int) = size := Int.toNat_of_nonneg (by omega)
      refine ⟨⟨Nat.clog 2 size.toNat, rfl⟩, ?_, fun j hj => ?_⟩
      · have := Nat.le_pow_clog (by norm_num : 1 < 2) size.toNat
        have hcast : (size.toNat : Int) ≤ ((2 ^ Nat.clog 2 size.toNat : Nat) : Int) := by
          exact_mod_cast this
        omega
      · have hjn : size.toNat ≤ 2 ^ j := by
          have : ((2 : Int) ^ j) = ((2 ^ j : Nat) : Int) := by push_cast; ring
          rw [this] at hj
          omega
        have hcl : Nat.clog 2 size.toNat ≤ j :=
          (Nat.le_pow_iff_clog_le (by norm_num)).mp hjn
        exact Nat.pow_le_pow_right (by norm_num) hcl

/-- Witness for C6: success at 3 with size 4, failure above `2^30`, and the
129-to-256 rounding obtained from the least-power-of-two property. -/
theorem new_inverse_size_spec_witness :
    (NewInverseBloomFilter 3).isOk = true ∧
      (NewInverseBloomFilter (2 ^ 30 + 1)).isOk = false ∧
      (∃ f, NewInverseBloomFilter 129 = .ok f ∧
        129 ≤ (f.Size : Int) ∧ f.Size ≤ 2 ^ 8) := by
  refine ⟨(new_inverse_size_spec 3).1.mpr (by decide), ?_, ?_⟩
  · have h := (new_inverse_size_spec (2 ^ 30 + 1)).1
    cases hb : (NewInverseBloomFilter (2 ^ 30 + 1)).isOk with
    | false => rfl
    | true =>
      obtain ⟨_, hle⟩ := h.mp hb
      omega
  · have hok : NewInverseBloomFilter 129 =
        .ok { array := List.replicate 256 none, sizeMask := 255 } := by rfl
    obtain ⟨_, hge, hmin⟩ := (new_inverse_size_spec 129).2 _ hok
    exact ⟨_, hok, hge, hmin 8 (by norm_num)⟩

/-- Claim C1 (failing input): on a freshly constructed filter every slot is
vacant, yet `Observe` of the empty key returns `true` — the nil occupant of
a vacant slot is bytes-equal to the empty key — contradicting the
documented guarantee that `Observe` never returns `true` for a key that has
never been observed. -/
theorem observe_empty_key_false_positive :
    ∃ f, NewInverseBloomFilter 2 = .ok f ∧
      (∀ slot ∈ f.array, slot = none) ∧ (f.Observe []).1 = true :=
  ⟨{ array := [none, none], sizeMask := 1 }, by rfl, by decide, by decide⟩

/-- Claim C7 counterexample: on a size-2 filter, after observing
`{27,28,29}` and then `{27,28,30}`, re-observing `{27,28,29}` returns
`true`, not `false` as claimed, and the two keys map to distinct slots. -/
theorem observe_27_28_29_not_evicted :
    ∃ f, NewInverseBloomFilter 2 = .ok f ∧
      (((f.Observe [27, 28, 29]).2.Observe [27, 28, 30]).2.Observe [27, 28, 29]).1 =
        true ∧
      f.observeIndex [27, 28, 29] ≠ f.observeIndex [27, 28, 30] :=
  ⟨{ array := [none, none], sizeMask := 1 }, by rfl, by decide, by decide⟩

/-- Claim C7 amended: observing `{27,28,30}` after `{27,28,29}` returns
`false`, and the subsequent observation of `{27,28,29}` returns `true`: the
two keys hash to different slots at size 2, so no eviction occurs; the key
that does collide with `{27,28,30}` is `{27,28,35}`. -/
theorem observe_27_28_29_sequence :
    ∃ f, NewInverseBloomFilter 2 = .ok f ∧
      (f.Observe [27, 28, 29]).1 = false ∧
      ((f.Observe [27, 28, 29]).2.Observe [27, 28, 30]).1 = false ∧
      (((f.Observe [27, 28, 29]).2.Observe [27, 28, 30]).2.Observe [27, 28, 29]).1 =
        true ∧
      f.observeIndex [27, 28, 30] = f.observeIndex [27, 28, 35] :=
  ⟨{ array := [none, none], sizeMask := 1 }, by rfl, by decide, by decide, by decide,
    by decide⟩

/-- Claim C10: `uintHash.Sum32` combines only the first three digest bytes
with 3-bit shifts, so it is at most `255*73 = 18615 < 2^15`; hence the slot
index `Observe` uses is at most 18615 and slots at indices ≥ 18616 are never
read or written. -/
theorem sum32_bounded (f : InverseBloomFilter) (key : List Nat) (j : Nat)
    (hj : 18616 ≤ j) :
    uintHash.Sum32 (fnv32a key) ≤ 18615 ∧ 18615 < 2 ^ 15 ∧
      f.observeIndex key ≤ 18615 ∧
      (f.Observe key).2.array.getD j none = f.array.getD j none := by
  have hb : uintHash.Sum32 (fnv32a key) ≤ 18615 := by
    show ((fnv32a key / 2 ^ 24 % 256) <<< 3 + fnv32a key / 2 ^ 16 % 256) <<< 3 +
      fnv32a key / 2 ^ 8 % 256 ≤ 18615
    rw [Nat.shiftLeft_eq, Nat.shiftLeft_eq]
    omega
  have hidx : f.observeIndex key ≤ 18615 := le_trans Nat.and_le_left hb
  refine ⟨hb, by norm_num, hidx, ?_⟩
  show (f.array.set (f.observeIndex key) (some key)).getD j none = f.array.getD j none
  exact getD_set_ne (by omega)

/-- Witness for C10 on a filter larger than `2^15` slots. -/
theorem sum32_bounded_witness :
    (18616 ≤ 18616) ∧ uintHash.Sum32 (fnv32a [1, 2, 3]) ≤ 18615 ∧
      ({ array := List.replicate 65536 none, sizeMask := 65535 } :
        InverseBloomFilter).observeIndex [1, 2, 3] ≤ 18615 ∧
      (({ array := List.replicate 65536 none, sizeMask := 65535 } :
          InverseBloomFilter).Observe [1, 2, 3]).2.array.getD 18616 none =
        ({ array := List.replicate 65536 none, sizeMask := 65535 } :
          InverseBloomFilter).array.getD 18616 none := by
  obtain ⟨h1, _h2, h3, h4⟩ :=
    sum32_bounded { array := List.replicate 65536 none, sizeMask := 65535 } [1, 2, 3]
      18616 (by decide)
  exact ⟨by decide, h1, h3, h4⟩

end Boom
